import Mathlib

/-!
Verification development for the File-Flattening repository
(`flattener.py` and `flattener2.py`).

The domain/IP enrichment core is shallowly embedded here:

* `extract_domain` embeds the Python function `extract_domain` (identical in
  both files), i.e. `re.search(r"https?://(?:www\.)?([^/]+)", url)` returning
  group 1 on success and the sentinel `"NA"` otherwise.  The regex engine's
  leftmost-match search is embedded by `searchL`, the attempt at a single
  position by `matchAt`.
* DNS lookups are embedded by an outcome oracle `resolve : String → Option
  String`: `some ip` when the lookup succeeds with address `ip`, `none` when
  it fails (NXDOMAIN, timeout, network error).  `Flattener.get_ip` embeds
  `get_ip` of `flattener.py` (exception mapped to `"NA"`), and
  `Flattener2.get_ip_async` embeds `get_ip_async` of `flattener2.py`.
* A data-frame row is embedded as `Row` (the `infringing_urls` column plus an
  opaque payload standing for all other columns); the enrichment pipeline
  `parallelize_domain_ip` of each file is embedded over `List Row`.
-/

/-- Boolean form of the character class `[^/]` of the regex. -/
def notSlash (c : Char) : Bool := decide (c ≠ '/')

/-- Embeds the regex prefix `https?://`: if the list starts with `http://` or
`https://`, return the remainder, else `none`.  The alternation is written as
two pattern-match arms exactly as the regex engine tries `https` before
backtracking to `http`. -/
def afterScheme : List Char → Option (List Char)
  | 'h' :: 't' :: 't' :: 'p' :: 's' :: ':' :: '/' :: '/' :: rest => some rest
  | 'h' :: 't' :: 't' :: 'p' :: ':' :: '/' :: '/' :: rest => some rest
  | _ => none

/-- Embeds the effect of the optional group `(?:www\.)?` on the captured
host run: the regex consumes a leading `www.` only when at least one `[^/]`
character remains for group 1, otherwise it backtracks and the full run is
the group. -/
def stripWWW (t : List Char) : List Char :=
  if t.take 4 = "www.".data ∧ 4 < t.length then t.drop 4 else t

/-- Embeds one anchored attempt of the regex `https?://(?:www\.)?([^/]+)` at
the head of `l`: `some g` with `g` the captured group, or `none` when the
attempt fails. -/
def matchAt (l : List Char) : Option (List Char) :=
  match afterScheme l with
  | none => none
  | some r =>
    let t := r.takeWhile notSlash
    if t = [] then none else some (stripWWW t)

/-- Embeds `re.search`: try the anchored attempt at each position from the
left, returning the first successful capture. -/
def searchL : List Char → Option (List Char)
  | [] => none
  | c :: rest =>
    match matchAt (c :: rest) with
    | some g => some g
    | none => searchL rest

/-- Embeds `extract_domain` (flattener.py lines 12-27, flattener2.py lines
15-30): the captured host of the regex search, or the sentinel `"NA"`. -/
def extract_domain (url : String) : String :=
  match searchL url.data with
  | some g => String.mk g
  | none => "NA"

/-- The list starts with a character other than a slash.  (Declarative side
condition used to state where the regex can match.) -/
def headNonSlash (l : List Char) : Prop := l ≠ [] ∧ l.head? ≠ some '/'

/-- Declarative statement that the regex `https?://(?:www\.)?([^/]+)` can
match at the head of `m`: a scheme occurrence followed by at least one
non-slash character. -/
def occursHead (m : List Char) : Prop :=
  (m.take 7 = "http://".data ∧ headNonSlash (m.drop 7)) ∨
  (m.take 8 = "https://".data ∧ headNonSlash (m.drop 8))

/-- Declarative statement that the regex can match at position `i` of `l`. -/
def schemeOccursAt (l : List Char) (i : Nat) : Prop := occursHead (l.drop i)

/-- The captured host of the attempt at position `i` (empty when the attempt
fails there). -/
def hostAt (l : List Char) (i : Nat) : List Char :=
  match matchAt (l.drop i) with
  | some g => g
  | none => []

instance (l : List Char) : Decidable (headNonSlash l) := by
  unfold headNonSlash; infer_instance

instance (m : List Char) : Decidable (occursHead m) := by
  unfold occursHead; infer_instance

instance (l : List Char) (i : Nat) : Decidable (schemeOccursAt l i) := by
  unfold schemeOccursAt; infer_instance

/-!
Rows and the enrichment pipeline.  A data-frame row is its
`infringing_urls` column plus an opaque payload standing for every other
column.  The rest of the pipeline (JSON flattening, CSV output, summaries)
is out of scope.
-/

/-- A row of the flattened data frame: the `infringing_urls` column plus an
opaque payload standing for all other columns. -/
structure Row where
  infringing_urls : String
  payload : String
deriving DecidableEq

/-- A row of the enriched data frame: the original row plus the added
`domain` and `ipaddress` columns. -/
structure EnrichedRow where
  row : Row
  domain : String
  ipaddress : String
deriving DecidableEq

/-- Embeds `df['domain'] = df['infringing_urls'].swifter.apply(extract_domain)`:
each row paired with its extracted domain column. -/
def with_domain (df : List Row) : List (Row × String) :=
  df.map (fun r => (r, extract_domain r.infringing_urls))

/-- Embeds `df = df[df['domain'] != 'NA']`: keep the rows whose domain
column is not the sentinel. -/
def drop_na_domain (df : List Row) : List (Row × String) :=
  (with_domain df).filter (fun p => p.2 ≠ "NA")

/-- Embeds `pandas.Series.unique`: the distinct values in order of first
appearance.  `seen` accumulates the values already emitted. -/
def uniqueAux (seen : List String) : List String → List String
  | [] => []
  | a :: l => if a ∈ seen then uniqueAux seen l else a :: uniqueAux (a :: seen) l

/-- Embeds `unique_domains = pd.DataFrame(df['domain'].unique(), ...)`:
the distinct domain values of the surviving rows. -/
def unique_domains (df : List Row) : List String :=
  uniqueAux [] ((drop_na_domain df).map (fun p => p.2))

namespace Flattener

/-- Embeds `get_ip` (flattener.py lines 29-42): the resolved address on
success, the sentinel `"NA"` when the lookup raises `socket.gaierror` or
`socket.timeout`.  The lookup outcome is the oracle `resolve`. -/
def get_ip (resolve : String → Option String) (domain : String) : String :=
  (resolve domain).getD "NA"

/-- Embeds the resolver-pool call of flattener.py lines 76-77
(`executor.map(get_ip, unique_domains['domain'])` assigned to the
`ipaddress` column): each domain paired with its `get_ip` result.
`ThreadPoolExecutor.map` yields results in argument order, independent of
completion order, which the list map reflects.  This is the `resolve_all`
interface of the specification. -/
def resolve_all (resolve : String → Option String) (domains : List String) :
    List (String × String) :=
  domains.map (fun d => (d, get_ip resolve d))

/-- Embeds `parallelize_domain_ip` (flattener.py lines 44-91): extract the
domain column, drop the `"NA"`-domain rows, resolve the unique domains, and
left-merge the `ipaddress` column back on the `domain` key, with
`fillna('NA')` as the final default. -/
def parallelize_domain_ip (resolve : String → Option String) (df : List Row) :
    List EnrichedRow :=
  let mapping := resolve_all resolve (unique_domains df)
  (drop_na_domain df).map
    (fun p => ⟨p.1, p.2, (List.lookup p.2 mapping).getD "NA"⟩)

end Flattener

namespace Flattener2

/-- Embeds `get_ip_async` (flattener2.py lines 32-40): the first resolved
address on success, the sentinel `"NA"` when the lookup raises any
exception.  The lookup outcome is the oracle `resolve`. -/
def get_ip_async (resolve : String → Option String) (domain : String) : String :=
  match resolve domain with
  | some ip => ip
  | none => "NA"

/-- Embeds `resolve_ips_async` (flattener2.py lines 42-53): one
`get_ip_async` task per domain, gathered in task order
(`asyncio.gather` preserves argument order, independent of completion
order). -/
def resolve_ips_async (resolve : String → Option String) (domains : List String) :
    List (String × String) :=
  domains.map (fun d => (d, get_ip_async resolve d))

/-- Embeds `parallelize_domain_ip` (flattener2.py lines 55-69): identical
frame pipeline to flattener.py, with `resolve_ips_async` as the resolver
stage. -/
def parallelize_domain_ip (resolve : String → Option String) (df : List Row) :
    List EnrichedRow :=
  let mapping := resolve_ips_async resolve (unique_domains df)
  (drop_na_domain df).map
    (fun p => ⟨p.1, p.2, (List.lookup p.2 mapping).getD "NA"⟩)

end Flattener2

/-!
Lemmas about the extractor embedding.
-/

theorem afterScheme_eq_some (m r : List Char) :
    afterScheme m = some r ↔
      m = "http://".data ++ r ∨ m = "https://".data ++ r := by
  constructor
  · intro h
    unfold afterScheme at h
    split at h
    · right
      injection h with h
      subst h
      rfl
    · left
      injection h with h
      subst h
      rfl
    · exact absurd h (by simp)
  · rintro (rfl | rfl) <;> rfl

theorem takeWhile_all_append (p : Char → Bool) (l r : List Char)
    (h : ∀ c ∈ l, p c = true) :
    (l ++ r).takeWhile p = l ++ r.takeWhile p := by
  induction l with
  | nil => simp
  | cons c t ih =>
    simp [List.takeWhile_cons, h c (List.mem_cons_self c t),
      ih (fun x hx => h x (List.mem_cons_of_mem c hx))]

theorem takeWhile_notSlash_ne_nil (r : List Char) :
    r.takeWhile notSlash ≠ [] ↔ headNonSlash r := by
  cases r with
  | nil => simp [headNonSlash]
  | cons c t =>
    by_cases hc : c = '/'
    · subst hc
      simp [List.takeWhile_cons, notSlash, headNonSlash]
    · simp [List.takeWhile_cons, notSlash, hc, headNonSlash]

theorem matchAt_ne_none_iff (m : List Char) :
    matchAt m ≠ none ↔ occursHead m := by
  unfold matchAt
  constructor
  · intro h
    rcases ha : afterScheme m with _ | r
    · rw [ha] at h; simp at h
    · rw [ha] at h
      simp only at h
      rcases (afterScheme_eq_some m r).mp ha with rfl | rfl
      · left
        constructor
        · rfl
        · have hne : r.takeWhile notSlash ≠ [] := by
            intro hnil
            rw [hnil] at h
            simp at h
          exact (takeWhile_notSlash_ne_nil r).mp hne
      · right
        constructor
        · rfl
        · have hne : r.takeWhile notSlash ≠ [] := by
            intro hnil
            rw [hnil] at h
            simp at h
          exact (takeWhile_notSlash_ne_nil r).mp hne
  · intro h
    rcases h with ⟨hpre, hhead⟩ | ⟨hpre, hhead⟩
    · have hm : "http://".data ++ m.drop 7 = m := by
        rw [← hpre]; exact List.take_append_drop 7 m
      rw [← hm]
      rw [show afterScheme ("http://".data ++ m.drop 7) = some (m.drop 7) from rfl]
      simp only
      rw [if_neg ((takeWhile_notSlash_ne_nil (m.drop 7)).mpr hhead)]
      simp
    · have hm : "https://".data ++ m.drop 8 = m := by
        rw [← hpre]; exact List.take_append_drop 8 m
      rw [← hm]
      rw [show afterScheme ("https://".data ++ m.drop 8) = some (m.drop 8) from rfl]
      simp only
      rw [if_neg ((takeWhile_notSlash_ne_nil (m.drop 8)).mpr hhead)]
      simp

theorem matchAt_eq_none_of_not_occurs (m : List Char) (h : ¬ occursHead m) :
    matchAt m = none := by
  rcases hm : matchAt m with _ | g
  · rfl
  · exact absurd ((matchAt_ne_none_iff m).mp (by rw [hm]; simp)) h

theorem matchAt_nil : matchAt [] = none := rfl

theorem searchL_eq_of_min (l : List Char) (i : Nat) (g : List Char)
    (hi : matchAt (l.drop i) = some g)
    (hmin : ∀ j, j < i → matchAt (l.drop j) = none) :
    searchL l = some g := by
  induction i generalizing l with
  | zero =>
    cases l with
    | nil => rw [List.drop_nil] at hi; exact absurd hi (by simp [matchAt_nil])
    | cons c t =>
      rw [List.drop_zero] at hi
      unfold searchL
      rw [hi]
  | succ n ih =>
    cases l with
    | nil => rw [List.drop_nil] at hi; exact absurd hi (by simp [matchAt_nil])
    | cons c t =>
      have h0 : matchAt (c :: t) = none := by
        have := hmin 0 (Nat.succ_pos n)
        rwa [List.drop_zero] at this
      unfold searchL
      rw [h0]
      exact ih t (by simpa using hi)
        (fun j hj => by simpa using hmin (j + 1) (Nat.succ_lt_succ hj))

theorem searchL_eq_none_of_all (l : List Char)
    (h : ∀ i, matchAt (l.drop i) = none) : searchL l = none := by
  induction l with
  | nil => rfl
  | cons c t ih =>
    have h0 : matchAt (c :: t) = none := by
      have := h 0; rwa [List.drop_zero] at this
    unfold searchL
    rw [h0]
    exact ih (fun i => by simpa using h (i + 1))

/-!
Lemmas about the enrichment pipeline embedding.
-/

theorem uniqueAux_count (d : String) (l seen : List String) :
    (uniqueAux seen l).count d = if d ∈ l ∧ d ∉ seen then 1 else 0 := by
  induction l generalizing seen with
  | nil => simp [uniqueAux]
  | cons a l ih =>
    unfold uniqueAux
    by_cases ha : a ∈ seen
    · rw [if_pos ha, ih]
      by_cases hd : d = a
      · subst hd
        simp [ha]
      · simp [hd]
    · rw [if_neg ha]
      by_cases hd : d = a
      · subst hd
        rw [List.count_cons_self, ih]
        simp [ha]
      · rw [List.count_cons_of_ne hd, ih]
        simp [hd]

theorem uniqueAux_mem (d : String) (l seen : List String) :
    d ∈ uniqueAux seen l ↔ d ∈ l ∧ d ∉ seen := by
  have h := uniqueAux_count d l seen
  constructor
  · intro hm
    by_contra hc
    rw [if_neg hc] at h
    exact absurd (List.count_pos_iff.mpr hm) (by omega)
  · intro hc
    rw [if_pos hc] at h
    exact List.count_pos_iff.mp (by omega)

theorem drop_na_map_mem (df : List Row) (d : String) :
    d ∈ (drop_na_domain df).map (fun p => p.2) ↔
      d ≠ "NA" ∧ ∃ r ∈ df, extract_domain r.infringing_urls = d := by
  constructor
  · intro h
    obtain ⟨p, hp, hpd⟩ := List.mem_map.mp h
    obtain ⟨hpm, hna⟩ := List.mem_filter.mp hp
    obtain ⟨r, hr, hre⟩ := List.mem_map.mp hpm
    subst hpd
    refine ⟨by simpa using hna, r, hr, ?_⟩
    rw [← hre]
  · rintro ⟨hna, r, hr, hd⟩
    refine List.mem_map.mpr ⟨(r, extract_domain r.infringing_urls), ?_, hd⟩
    exact List.mem_filter.mpr ⟨List.mem_map.mpr ⟨r, hr, rfl⟩, by simpa [hd] using hna⟩

theorem unique_domains_mem (df : List Row) (d : String) :
    d ∈ unique_domains df ↔
      d ≠ "NA" ∧ ∃ r ∈ df, extract_domain r.infringing_urls = d := by
  unfold unique_domains
  rw [uniqueAux_mem, drop_na_map_mem]
  simp

theorem lookup_map_self (g : String → String) (l : List String) (d : String) :
    List.lookup d (l.map (fun x => (x, g x))) =
      if d ∈ l then some (g d) else none := by
  induction l with
  | nil => simp [List.lookup]
  | cons a l ih =>
    by_cases hd : d = a
    · subst hd
      simp [List.lookup]
    · have hba : (d == a) = false := by simpa using hd
      simp [List.lookup, hba, ih, List.mem_cons, hd]

theorem mem_unique_domains_of_mem_drop (df : List Row) (p : Row × String)
    (hp : p ∈ drop_na_domain df) : p.2 ∈ unique_domains df := by
  unfold unique_domains
  rw [uniqueAux_mem]
  exact ⟨List.mem_map_of_mem _ hp, by simp⟩

theorem parallelize_eq (resolve : String → Option String) (df : List Row) :
    Flattener.parallelize_domain_ip resolve df =
      (drop_na_domain df).map
        (fun p => ⟨p.1, p.2, Flattener.get_ip resolve p.2⟩) := by
  unfold Flattener.parallelize_domain_ip Flattener.resolve_all
  apply List.map_congr_left
  intro p hp
  rw [lookup_map_self, if_pos (mem_unique_domains_of_mem_drop df p hp)]
  rfl

theorem enrich_rows_eq (resolve : String → Option String) (df : List Row) :
    (Flattener.parallelize_domain_ip resolve df).map (fun e => e.row) =
      df.filter (fun r => extract_domain r.infringing_urls ≠ "NA") := by
  rw [parallelize_eq]
  unfold drop_na_domain with_domain
  induction df with
  | nil => rfl
  | cons r df ih =>
    by_cases h : extract_domain r.infringing_urls = "NA"
    · simpa [List.filter_cons, h] using ih
    · simpa [List.filter_cons, h] using ih

theorem parallelize_mem_iff (resolve : String → Option String) (df : List Row)
    (e : EnrichedRow) :
    e ∈ Flattener.parallelize_domain_ip resolve df ↔
      e.row ∈ df ∧ e.domain = extract_domain e.row.infringing_urls ∧
        e.domain ≠ "NA" ∧ e.ipaddress = Flattener.get_ip resolve e.domain := by
  rw [parallelize_eq]
  unfold drop_na_domain with_domain
  simp only [List.mem_map, List.mem_filter]
  constructor
  · rintro ⟨p, ⟨hpm, hna⟩, rfl⟩
    obtain ⟨r, hr, hre⟩ := hpm
    rw [← hre] at hna ⊢
    exact ⟨hr, rfl, by simpa using hna, rfl⟩
  · rintro ⟨hr, hdom, hna, hip⟩
    refine ⟨(e.row, e.domain), ⟨⟨e.row, hr, by rw [hdom]⟩,
      by simpa using hna⟩, ?_⟩
    rw [← hip]

/-!
Lemmas for well-formed URLs.
-/

theorem data_ne_nil (host : String) (h : host ≠ "") : host.data ≠ [] := by
  intro h0
  apply h
  have hmk : host = String.mk host.data := rfl
  rw [hmk, h0]

theorem stripWWW_www (t : List Char) (h : t ≠ []) :
    stripWWW ('w' :: 'w' :: 'w' :: '.' :: t) = t := by
  have hl : 0 < t.length := List.length_pos.mpr h
  unfold stripWWW
  rw [if_pos ⟨rfl, by simpa using hl⟩]
  rfl

theorem stripWWW_noop (t : List Char)
    (h : ¬ (t.take 4 = "www.".data ∧ 4 < t.length)) : stripWWW t = t := by
  unfold stripWWW
  rw [if_neg h]

theorem searchL_of_matchAt (l g : List Char) (h : matchAt l = some g) :
    searchL l = some g := by
  cases l with
  | nil => rw [matchAt_nil] at h; cases h
  | cons c t => unfold searchL; rw [h]

theorem extract_of_data (s : String) (g : List Char)
    (h : matchAt s.data = some g) : extract_domain s = String.mk g := by
  unfold extract_domain
  rw [searchL_of_matchAt s.data g h]

theorem matchAt_http (tail : List Char) :
    matchAt ('h' :: 't' :: 't' :: 'p' :: ':' :: '/' :: '/' :: tail) =
      (if tail.takeWhile notSlash = [] then none
       else some (stripWWW (tail.takeWhile notSlash))) := rfl

theorem matchAt_https (tail : List Char) :
    matchAt ('h' :: 't' :: 't' :: 'p' :: 's' :: ':' :: '/' :: '/' :: tail) =
      (if tail.takeWhile notSlash = [] then none
       else some (stripWWW (tail.takeWhile notSlash))) := rfl

theorem takeWhile_host (host : String) (hslash : ∀ c ∈ host.data, c ≠ '/')
    (z : List Char) : (host.data ++ '/' :: z).takeWhile notSlash = host.data := by
  rw [takeWhile_all_append notSlash host.data ('/' :: z)
    (fun c hc => by simpa [notSlash] using hslash c hc)]
  simp [List.takeWhile_cons, notSlash]

theorem takeWhile_www_host (host : String) (hslash : ∀ c ∈ host.data, c ≠ '/')
    (z : List Char) :
    ('w' :: 'w' :: 'w' :: '.' :: (host.data ++ '/' :: z)).takeWhile notSlash
      = 'w' :: 'w' :: 'w' :: '.' :: host.data := by
  have hw : notSlash 'w' = true := by decide
  have hdot : notSlash '.' = true := by decide
  simp only [List.takeWhile_cons, hw, hdot, if_true]
  rw [takeWhile_host host hslash z]

/-- C3: for every URL of the form `http(s)://[www.]host/...` with a
nonempty slash-free host (not itself starting with a proper `www.` prefix
when the optional `www.` is absent), `extract_domain` returns the host
verbatim, scheme and optional `www.` stripped, port retained. -/
theorem extract_domain_wellformed (scheme w host rest : String)
    (hs : scheme = "http" ∨ scheme = "https")
    (hw : w = "" ∨ w = "www.")
    (hne : host ≠ "")
    (hslash : ∀ c ∈ host.data, c ≠ '/')
    (hwww : w = "" → ¬ (host.data.take 4 = "www.".data ∧ 4 < host.data.length)) :
    extract_domain (scheme ++ "://" ++ w ++ host ++ "/" ++ rest) = host := by
  have hdne : host.data ≠ [] := data_ne_nil host hne
  rcases hs with rfl | rfl <;> rcases hw with rfl | rfl
  · apply extract_of_data _ host.data
    have hd : ("http" ++ "://" ++ "" ++ host ++ "/" ++ rest).data
        = 'h' :: 't' :: 't' :: 'p' :: ':' :: '/' :: '/'
            :: (host.data ++ '/' :: rest.data) := by
      simp [String.data_append]
    rw [hd, matchAt_http, takeWhile_host host hslash rest.data, if_neg hdne,
      stripWWW_noop host.data (hwww rfl)]
  · apply extract_of_data _ host.data
    have hd : ("http" ++ "://" ++ "www." ++ host ++ "/" ++ rest).data
        = 'h' :: 't' :: 't' :: 'p' :: ':' :: '/' :: '/'
            :: ('w' :: 'w' :: 'w' :: '.' :: (host.data ++ '/' :: rest.data)) := by
      simp [String.data_append]
    rw [hd, matchAt_http, takeWhile_www_host host hslash rest.data,
      if_neg (by simp), stripWWW_www host.data hdne]
  · apply extract_of_data _ host.data
    have hd : ("https" ++ "://" ++ "" ++ host ++ "/" ++ rest).data
        = 'h' :: 't' :: 't' :: 'p' :: 's' :: ':' :: '/' :: '/'
            :: (host.data ++ '/' :: rest.data) := by
      simp [String.data_append]
    rw [hd, matchAt_https, takeWhile_host host hslash rest.data, if_neg hdne,
      stripWWW_noop host.data (hwww rfl)]
  · apply extract_of_data _ host.data
    have hd : ("https" ++ "://" ++ "www." ++ host ++ "/" ++ rest).data
        = 'h' :: 't' :: 't' :: 'p' :: 's' :: ':' :: '/' :: '/'
            :: ('w' :: 'w' :: 'w' :: '.' :: (host.data ++ '/' :: rest.data)) := by
      simp [String.data_append]
    rw [hd, matchAt_https, takeWhile_www_host host hslash rest.data,
      if_neg (by simp), stripWWW_www host.data hdne]

/-!
Claim theorems.
-/

/-- C8: `extract_domain` is a total function on strings, and on every
string in which the pattern has no occurrence (malformed URL, missing
scheme, empty string) it returns the literal marker `"NA"`. -/
theorem extract_domain_no_match_na (s : String)
    (h : ∀ i < s.data.length, ¬ schemeOccursAt s.data i) :
    extract_domain s = "NA" := by
  have hall : ∀ i, matchAt (s.data.drop i) = none := by
    intro i
    by_cases hi : i < s.data.length
    · exact matchAt_eq_none_of_not_occurs _ (h i hi)
    · rw [List.drop_eq_nil_of_le (Nat.le_of_not_lt hi)]
      exact matchAt_nil
  unfold extract_domain
  rw [searchL_eq_none_of_all s.data hall]

theorem extract_domain_no_match_na_witness :
    (∀ i < ("not a url").data.length, ¬ schemeOccursAt ("not a url").data i) ∧
      extract_domain "not a url" = "NA" ∧ extract_domain "" = "NA" :=
  ⟨by decide, extract_domain_no_match_na "not a url" (by decide), by decide⟩

/-- C10 counterexample: the string `"http://NA/x"` has a scheme occurrence
at position 0 (followed by a non-slash character), yet `extract_domain`
returns `"NA"` — the captured host is the literal string `"NA"` — so the
claim that `"NA"` is returned only when no occurrence exists is false. -/
theorem extract_domain_na_host_cex :
    schemeOccursAt ("http://NA/x").data 0 ∧
      extract_domain "http://NA/x" = "NA" := by
  constructor <;> decide

/-- C10 (amended): `extract_domain` matches anywhere in the string, not
only at its start: whenever the pattern occurs at position `i` and at no
earlier position, the result is the captured host of that leftmost
occurrence (which may itself be the literal string `"NA"`). -/
theorem extract_domain_leftmost (s : String) (i : Nat)
    (h : schemeOccursAt s.data i)
    (hmin : ∀ j < i, ¬ schemeOccursAt s.data j) :
    extract_domain s = String.mk (hostAt s.data i) := by
  have hne : matchAt (s.data.drop i) ≠ none := (matchAt_ne_none_iff _).mpr h
  rcases hg : matchAt (s.data.drop i) with _ | g
  · exact absurd hg hne
  · have hs : searchL s.data = some g :=
      searchL_eq_of_min s.data i g hg
        (fun j hj => matchAt_eq_none_of_not_occurs _ (hmin j hj))
    unfold extract_domain
    rw [hs]
    unfold hostAt
    rw [hg]

theorem extract_domain_leftmost_witness :
    schemeOccursAt ("go https://www.foo.com/a").data 3 ∧
      extract_domain "go https://www.foo.com/a" = "foo.com" :=
  ⟨by decide,
    (extract_domain_leftmost "go https://www.foo.com/a" 3 (by decide)
      (by decide)).trans (by decide)⟩

theorem extract_domain_wellformed_witness :
    (∀ c ∈ ("example.com").data, c ≠ '/') ∧
      extract_domain ("https" ++ "://" ++ "www." ++ "example.com" ++ "/" ++ "path?q=1")
        = "example.com" ∧
      extract_domain ("http" ++ "://" ++ "" ++ "example.org:8080" ++ "/" ++ "x")
        = "example.org:8080" :=
  ⟨by decide,
    extract_domain_wellformed "https" "www." "example.com" "path?q=1"
      (Or.inr rfl) (Or.inr rfl) (by decide) (by decide)
      (fun hw => absurd hw (by decide)),
    extract_domain_wellformed "http" "" "example.org:8080" "x"
      (Or.inl rfl) (Or.inl rfl) (by decide) (by decide)
      (fun _ => by decide)⟩

/-- C1 counterexample: on the one-row input whose URL has no extractable
domain, enrichment returns 0 rows while the input has 1 row — the
`"NA"`-domain row is dropped, not retained with `ipaddress = "NA"`. -/
theorem enrich_count_cex :
    (Flattener.parallelize_domain_ip (fun _ => none)
        [{ infringing_urls := "bad", payload := "p0" }]).length ≠
      ([{ infringing_urls := "bad", payload := "p0" }] : List Row).length := by
  decide

/-- C1 (amended): enrichment returns exactly the input rows whose extracted
domain is not `"NA"`, in input order, never dropping or duplicating any of
them; rows whose extracted domain is `"NA"` are excluded from resolution
and also removed from the final output. -/
theorem enrich_count_amended (resolve : String → Option String) (df : List Row) :
    (Flattener.parallelize_domain_ip resolve df).map (fun e => e.row) =
        df.filter (fun r => extract_domain r.infringing_urls ≠ "NA") ∧
      (Flattener.parallelize_domain_ip resolve df).length =
        (df.filter (fun r => extract_domain r.infringing_urls ≠ "NA")).length := by
  refine ⟨enrich_rows_eq resolve df, ?_⟩
  rw [← enrich_rows_eq resolve df, List.length_map]

/-- C2: a failed lookup maps its domain to `"NA"` instead of raising, no
per-domain failure aborts the batch, and for every nonempty domain list
whose lookups all fail, `resolve_all` returns one entry per domain with
every value `"NA"`. -/
theorem resolve_all_failures (resolve : String → Option String)
    (domains : List String) (_hN : 1 ≤ domains.length)
    (hfail : ∀ d ∈ domains, resolve d = none) :
    (Flattener.resolve_all resolve domains).length = domains.length ∧
      ∀ p ∈ Flattener.resolve_all resolve domains, p.2 = "NA" := by
  constructor
  · simp [Flattener.resolve_all]
  · intro p hp
    obtain ⟨d, hd, hpd⟩ := List.mem_map.mp hp
    rw [← hpd]
    simp [Flattener.get_ip, hfail d hd]

theorem resolve_all_failures_witness :
    1 ≤ (["a.test", "b.test"] : List String).length ∧
      (Flattener.resolve_all (fun _ => none) ["a.test", "b.test"]).length = 2 ∧
      ∀ p ∈ Flattener.resolve_all (fun _ => none) ["a.test", "b.test"],
        p.2 = "NA" := by
  have h := resolve_all_failures (fun _ => none) ["a.test", "b.test"]
    (by decide) (fun d _ => rfl)
  exact ⟨by decide, h.1, h.2⟩

theorem get_ip_async_eq_get_ip (resolve : String → Option String) (d : String) :
    Flattener2.get_ip_async resolve d = Flattener.get_ip resolve d := by
  unfold Flattener2.get_ip_async Flattener.get_ip
  cases resolve d <;> rfl

/-- C4: under any fixed assignment of lookup outcomes per domain, the
thread-pool variant (flattener.py) and the async-resolver variant
(flattener2.py) produce identical enriched outputs for every input row
set. -/
theorem variants_equivalent (resolve : String → Option String) (df : List Row) :
    Flattener.parallelize_domain_ip resolve df =
      Flattener2.parallelize_domain_ip resolve df := by
  unfold Flattener.parallelize_domain_ip Flattener2.parallelize_domain_ip
    Flattener.resolve_all Flattener2.resolve_ips_async
  simp only [get_ip_async_eq_get_ip]

/-- C5: every output row whose domain equals a key of the resolved mapping
receives exactly that key's IP value (join consistency, no row-dependent
divergence), and an output row whose domain were `"NA"` or absent from the
mapping would receive `ipaddress = "NA"`. -/
theorem join_consistency (resolve : String → Option String) (df : List Row)
    (e : EnrichedRow) (he : e ∈ Flattener.parallelize_domain_ip resolve df) :
    (∀ d ip, (d, ip) ∈ Flattener.resolve_all resolve (unique_domains df) →
        e.domain = d → e.ipaddress = ip) ∧
      ((e.domain = "NA" ∨
          ∀ ip, (e.domain, ip) ∉
            Flattener.resolve_all resolve (unique_domains df)) →
        e.ipaddress = "NA") := by
  obtain ⟨hrow, hdom, hna, hip⟩ := (parallelize_mem_iff resolve df e).mp he
  constructor
  · rintro d ip hmem rfl
    obtain ⟨d0, hd0, heq⟩ := List.mem_map.mp hmem
    injection heq with h1 h2
    subst h1
    rw [hip, ← h2]
  · rintro (hna2 | habs)
    · exact absurd hna2 hna
    · exfalso
      have hmem : e.domain ∈ unique_domains df := by
        rw [unique_domains_mem]
        exact ⟨hna, e.row, hrow, hdom.symm⟩
      exact habs (Flattener.get_ip resolve e.domain)
        (List.mem_map.mpr ⟨e.domain, hmem, rfl⟩)

theorem join_consistency_witness :
    (⟨⟨"https://a.test/1", "p"⟩, "a.test", "1.2.3.4"⟩ : EnrichedRow) ∈
        Flattener.parallelize_domain_ip (fun _ => some "1.2.3.4")
          [⟨"https://a.test/1", "p"⟩] ∧
      ((∀ d ip, (d, ip) ∈ Flattener.resolve_all (fun _ => some "1.2.3.4")
            (unique_domains [⟨"https://a.test/1", "p"⟩]) →
          (⟨⟨"https://a.test/1", "p"⟩, "a.test", "1.2.3.4"⟩ : EnrichedRow).domain = d →
          (⟨⟨"https://a.test/1", "p"⟩, "a.test", "1.2.3.4"⟩ : EnrichedRow).ipaddress = ip) ∧
        (((⟨⟨"https://a.test/1", "p"⟩, "a.test", "1.2.3.4"⟩ : EnrichedRow).domain = "NA" ∨
            ∀ ip, ((⟨⟨"https://a.test/1", "p"⟩, "a.test", "1.2.3.4"⟩ : EnrichedRow).domain, ip) ∉
              Flattener.resolve_all (fun _ => some "1.2.3.4")
                (unique_domains [⟨"https://a.test/1", "p"⟩])) →
          (⟨⟨"https://a.test/1", "p"⟩, "a.test", "1.2.3.4"⟩ : EnrichedRow).ipaddress = "NA")) :=
  ⟨by decide,
    join_consistency (fun _ => some "1.2.3.4") [⟨"https://a.test/1", "p"⟩]
      ⟨⟨"https://a.test/1", "p"⟩, "a.test", "1.2.3.4"⟩ (by decide)⟩

/-- C6: the domain list handed to the resolver contains exactly the
distinct non-`"NA"` extracted domains of the input rows, each exactly once
(so each unique domain is resolved exactly once however many rows carry
it). -/
theorem unique_domains_exactly_once (df : List Row) (d : String) :
    (unique_domains df).count d =
      if d ≠ "NA" ∧ ∃ r ∈ df, extract_domain r.infringing_urls = d
      then 1 else 0 := by
  unfold unique_domains
  rw [uniqueAux_count]
  by_cases hc : d ≠ "NA" ∧ ∃ r ∈ df, extract_domain r.infringing_urls = d
  · rw [if_pos hc, if_pos ⟨(drop_na_map_mem df d).mpr hc, by simp⟩]
  · rw [if_neg hc, if_neg (fun hmem => hc ((drop_na_map_mem df d).mp hmem.1))]

/-- C7: the enriched output preserves the input row order (its rows are the
input rows carrying a non-`"NA"` domain, in input order), and the merge is
keyed by domain value alone: resolving the unique domains in any permuted
order yields the identical output. -/
theorem order_preservation (resolve : String → Option String) (df : List Row)
    (ds : List String) (hperm : ds.Perm (unique_domains df)) :
    (Flattener.parallelize_domain_ip resolve df).map (fun e => e.row) =
        df.filter (fun r => extract_domain r.infringing_urls ≠ "NA") ∧
      (drop_na_domain df).map
          (fun p => (⟨p.1, p.2,
            (List.lookup p.2 (Flattener.resolve_all resolve ds)).getD "NA"⟩ :
              EnrichedRow)) =
        Flattener.parallelize_domain_ip resolve df := by
  refine ⟨enrich_rows_eq resolve df, ?_⟩
  rw [parallelize_eq]
  apply List.map_congr_left
  intro p hp
  unfold Flattener.resolve_all
  rw [lookup_map_self,
    if_pos (hperm.mem_iff.mpr (mem_unique_domains_of_mem_drop df p hp))]
  rfl

theorem order_preservation_witness :
    (["b.test", "a.test"] : List String).Perm
        (unique_domains [⟨"http://a.test/1", "p"⟩, ⟨"http://b.test/2", "q"⟩]) ∧
      ((Flattener.parallelize_domain_ip (fun _ => some "9.9.9.9")
            [⟨"http://a.test/1", "p"⟩, ⟨"http://b.test/2", "q"⟩]).map (fun e => e.row) =
          ([⟨"http://a.test/1", "p"⟩, ⟨"http://b.test/2", "q"⟩] : List Row).filter
            (fun r => extract_domain r.infringing_urls ≠ "NA") ∧
        (drop_na_domain [⟨"http://a.test/1", "p"⟩, ⟨"http://b.test/2", "q"⟩]).map
            (fun p => (⟨p.1, p.2,
              (List.lookup p.2 (Flattener.resolve_all (fun _ => some "9.9.9.9")
                ["b.test", "a.test"])).getD "NA"⟩ : EnrichedRow)) =
          Flattener.parallelize_domain_ip (fun _ => some "9.9.9.9")
            [⟨"http://a.test/1", "p"⟩, ⟨"http://b.test/2", "q"⟩]) :=
  ⟨by decide,
    order_preservation (fun _ => some "9.9.9.9")
      [⟨"http://a.test/1", "p"⟩, ⟨"http://b.test/2", "q"⟩]
      ["b.test", "a.test"] (by decide)⟩
